import Mathlib

/-!
Shallow embedding of picolog (src/picolog.c, src/picolog.h).

The C program keeps a fixed static table `s_subscribers` of
`PICOLOG_MAX_SUBSCRIBERS` slots, each a pair of a callback function pointer
`fn` and a numeric severity `threshold`.  A NULL `fn` marks a free slot.
We model:
  * a function pointer as a `Nat` (its address); `0` is the NULL pointer,
  * a severity level as the `Nat` value of the C enum `picolog_level_t`
    (`PICOLOG_TRACE_LEVEL = 100` up to `PICOLOG_ALWAYS_LEVEL = 106`),
  * the table as a `List Subscriber` (slot `i` of the C array is element `i`),
  * a callback invocation `fn(severity, msg)` as the record
    `(fn, severity, msg)`; `picolog_message` returns the list of invocations
    it performs, in the order the C loop performs them.
-/

namespace Picolog

/-- `PICOLOG_MAX_SUBSCRIBERS` (picolog.h): number of subscriber slots. -/
def PICOLOG_MAX_SUBSCRIBERS : Nat := 6

/-- `PICOLOG_MAX_MESSAGE_LENGTH` (picolog.h): size in bytes of the static
message buffer `s_message`, terminating NUL included. -/
def PICOLOG_MAX_MESSAGE_LENGTH : Nat := 120

/-- `PICOLOG_TRACE_LEVEL` (picolog.h enum `picolog_level_t`). -/
def PICOLOG_TRACE_LEVEL : Nat := 100

/-- `PICOLOG_DEBUG_LEVEL`. -/
def PICOLOG_DEBUG_LEVEL : Nat := 101

/-- `PICOLOG_INFO_LEVEL`. -/
def PICOLOG_INFO_LEVEL : Nat := 102

/-- `PICOLOG_WARNING_LEVEL`. -/
def PICOLOG_WARNING_LEVEL : Nat := 103

/-- `PICOLOG_ERROR_LEVEL`. -/
def PICOLOG_ERROR_LEVEL : Nat := 104

/-- `PICOLOG_CRITICAL_LEVEL`. -/
def PICOLOG_CRITICAL_LEVEL : Nat := 105

/-- `PICOLOG_ALWAYS_LEVEL`. -/
def PICOLOG_ALWAYS_LEVEL : Nat := 106

/-- The level enumeration TRACE..ALWAYS, in increasing order. -/
def picologLevels : List Nat :=
  [PICOLOG_TRACE_LEVEL, PICOLOG_DEBUG_LEVEL, PICOLOG_INFO_LEVEL,
   PICOLOG_WARNING_LEVEL, PICOLOG_ERROR_LEVEL, PICOLOG_CRITICAL_LEVEL,
   PICOLOG_ALWAYS_LEVEL]

/-- The C enum `picolog_err_t` (picolog.h). -/
inductive picolog_err_t where
  | PICOLOG_ERR_NONE
  | PICOLOG_ERR_SUBSCRIBERS_EXCEEDED
  | PICOLOG_ERR_NOT_SUBSCRIBED
  deriving DecidableEq, Repr

/-- The C struct `subscriber_t` (picolog.c): a callback pointer and a
threshold.  `fn = 0` is the NULL pointer, marking a free slot. -/
structure Subscriber where
  fn : Nat
  threshold : Nat
  deriving DecidableEq, Repr

/-- The list of `fn` fields of the table, in slot order. -/
def fns (s : List Subscriber) : List Nat := s.map Subscriber.fn

/-- Number of live (non-NULL) slots in the table. -/
def countLive (s : List Subscriber) : Nat := (fns s).countP (fun a => a != 0)

/-- Threshold stored in the first slot whose callback is `f` (if any). -/
def thresholdOf (f : Nat) (s : List Subscriber) : Option Nat :=
  (s.find? (fun sub => sub.fn == f)).map Subscriber.threshold

/-- First phase of the `picolog_subscribe` loop (picolog.c:68-73): the loop
returns at the first slot `i` with `s_subscribers[i].fn == fn`, updating that
slot's threshold.  `updMatch` returns the updated table if such a slot
exists, `none` otherwise. -/
def updMatch (f t : Nat) : List Subscriber → Option (List Subscriber)
  | [] => none
  | sub :: rest =>
      if sub.fn = f then some ({ sub with threshold := t } :: rest)
      else (updMatch f t rest).map (sub :: ·)

/-- Second phase of `picolog_subscribe` (picolog.c:74-85): when no slot
matches, `available_slot` holds the LAST index `i` seen with
`s_subscribers[i].fn == NULL` (each free slot overwrites it), and both the
`fn` and `threshold` of that slot are assigned.  `setLastFree` writes
`⟨f, t⟩` into the last free slot, returning `none` when no slot is free. -/
def setLastFree (f t : Nat) : List Subscriber → Option (List Subscriber)
  | [] => none
  | sub :: rest =>
      match setLastFree f t rest with
      | some rest' => some (sub :: rest')
      | none => if sub.fn = 0 then some (⟨f, t⟩ :: rest) else none

/-- `picolog_subscribe` (picolog.c:65-86). -/
def picolog_subscribe (f t : Nat) (s : List Subscriber) :
    picolog_err_t × List Subscriber :=
  match updMatch f t s with
  | some s' => (.PICOLOG_ERR_NONE, s')
  | none =>
      match setLastFree f t s with
      | some s' => (.PICOLOG_ERR_NONE, s')
      | none => (.PICOLOG_ERR_SUBSCRIBERS_EXCEEDED, s)

/-- The `picolog_unsubscribe` loop (picolog.c:90-96): at the first slot with
`s_subscribers[i].fn == fn`, set `fn = NULL` (threshold untouched) and
return; `none` when no slot matches. -/
def unsubAux (f : Nat) : List Subscriber → Option (List Subscriber)
  | [] => none
  | sub :: rest =>
      if sub.fn = f then some ({ sub with fn := 0 } :: rest)
      else (unsubAux f rest).map (sub :: ·)

/-- `picolog_unsubscribe` (picolog.c:89-98). -/
def picolog_unsubscribe (f : Nat) (s : List Subscriber) :
    picolog_err_t × List Subscriber :=
  match unsubAux f s with
  | some s' => (.PICOLOG_ERR_NONE, s')
  | none => (.PICOLOG_ERR_NOT_SUBSCRIBED, s)

/-- The effect of `vsnprintf(s_message, PICOLOG_MAX_MESSAGE_LENGTH, fmt, ap)`
(picolog.c:117) on the text that ends up in the buffer: `msg` stands for the
full text `fmt` and the varargs would produce, and the buffer receives at
most `PICOLOG_MAX_MESSAGE_LENGTH - 1` of its characters, NUL-terminated
(vsnprintf writes at most `size - 1` characters plus the terminator and
never overflows `size`). -/
def vsnprintfTrunc (msg : List Char) : List Char :=
  msg.take (PICOLOG_MAX_MESSAGE_LENGTH - 1)

/-- The delivery loop of `picolog_message` (picolog.c:120-126): for each slot
in index order, if `fn != NULL` and `severity >= threshold`, invoke
`fn(severity, s_message)`.  Returns the invocation records in order. -/
def deliver (severity : Nat) (buf : List Char) :
    List Subscriber → List (Nat × Nat × List Char)
  | [] => []
  | sub :: rest =>
      if sub.fn ≠ 0 then
        if sub.threshold ≤ severity then
          (sub.fn, severity, buf) :: deliver severity buf rest
        else deliver severity buf rest
      else deliver severity buf rest

/-- `picolog_message` (picolog.c:113-127): format once into the shared
buffer, then walk the table.  Returns the list of callback invocations. -/
def picolog_message (severity : Nat) (msg : List Char)
    (s : List Subscriber) : List (Nat × Nat × List Char) :=
  deliver severity (vsnprintfTrunc msg) s

/-- The address of the default console formatter `picolog_format`
(picolog.c:140): any fixed non-NULL pointer; we pick 1. -/
def picolog_format : Nat := 1

/-- The zero-initialized static table `s_subscribers` (picolog.c:52), which
is also what `memset(s_subscribers, 0, sizeof(s_subscribers))` produces. -/
def emptyTable : List Subscriber :=
  List.replicate PICOLOG_MAX_SUBSCRIBERS ⟨0, 0⟩

/-- `picolog_init` (picolog.c:58-62): clear the table with `memset`, then
subscribe the default console formatter at `threshold`.  (The terminal-clear
`printf` has no effect on the registry and is not modeled.) -/
def picolog_init (t : Nat) : List Subscriber :=
  (picolog_subscribe picolog_format t emptyTable).2

/-- One registry-mutating API call. -/
inductive PicologOp where
  | init (t : Nat)
  | sub (f t : Nat)
  | unsub (f : Nat)
  deriving DecidableEq, Repr

/-- Effect of one API call on the table. -/
def applyOp (s : List Subscriber) : PicologOp → List Subscriber
  | .init t => picolog_init t
  | .sub f t => (picolog_subscribe f t s).2
  | .unsub f => (picolog_unsubscribe f s).2

/-- Table after a sequence of API calls, starting from the zero-initialized
static storage. -/
def applyOps (ops : List PicologOp) : List Subscriber :=
  ops.foldl applyOp emptyTable

/-- Two live callback identities in distinct slots must differ. -/
def Q (a b : Nat) : Prop := a ≠ 0 → b ≠ 0 → a ≠ b

instance (a b : Nat) : Decidable (Q a b) :=
  show Decidable (a ≠ 0 → b ≠ 0 → a ≠ b) from inferInstance

/-- The registry invariant (spec §3): the table has exactly
`PICOLOG_MAX_SUBSCRIBERS` slots (hence at most that many live subscribers),
and no two live slots share a callback identity.  A free slot is
distinguished from a live one by `fn = 0` (NULL). -/
def Inv (s : List Subscriber) : Prop :=
  s.length = PICOLOG_MAX_SUBSCRIBERS ∧ (fns s).Pairwise Q

instance (s : List Subscriber) : Decidable (Inv s) :=
  show Decidable (s.length = PICOLOG_MAX_SUBSCRIBERS ∧ (fns s).Pairwise Q) from
    inferInstance

/-- A fully occupied table of six distinct callbacks (used in witnesses). -/
def fullTable : List Subscriber :=
  [⟨1, 100⟩, ⟨2, 100⟩, ⟨3, 100⟩, ⟨4, 100⟩, ⟨5, 100⟩, ⟨6, 100⟩]

/-- A table holding the single live callback 7 (used in witnesses). -/
def unsubTable : List Subscriber :=
  [⟨0, 0⟩, ⟨7, 103⟩, ⟨0, 0⟩, ⟨0, 0⟩, ⟨0, 0⟩, ⟨0, 0⟩]

/-- A table with one live callback and free slots, the first free slot
having a stale nonzero threshold (used in witnesses). -/
def nullSubTable : List Subscriber :=
  [⟨7, 103⟩, ⟨0, 5⟩, ⟨0, 0⟩, ⟨0, 0⟩, ⟨0, 0⟩, ⟨0, 0⟩]

/-- A sequence of `picolog_subscribe` calls with one fixed callback `f`:
returns whether every call returned `PICOLOG_ERR_NONE`, and the final
table. -/
def subAll (f : Nat) : List Nat → List Subscriber → Bool × List Subscriber
  | [], s => (true, s)
  | t :: ts, s =>
      match picolog_subscribe f t s with
      | (e, s') =>
          match subAll f ts s' with
          | (ok, s'') => (decide (e = .PICOLOG_ERR_NONE) && ok, s'')

/-! ### Lemmas about the subscribe-loop phases -/

lemma updMatch_eq_none_iff (f t : Nat) (s : List Subscriber) :
    updMatch f t s = none ↔ ∀ sub ∈ s, sub.fn ≠ f := by
  induction s with
  | nil => simp [updMatch]
  | cons sub rest ih =>
      by_cases h : sub.fn = f
      · simp [updMatch, h]
      · cases h' : updMatch f t rest with
        | none =>
            simp only [updMatch, if_neg h, h', Option.map_none', List.mem_cons]
            constructor
            · rintro - x (rfl | hx)
              · exact h
              · exact ih.mp h' x hx
            · intro _; trivial
        | some r =>
            have : ¬ (∀ x ∈ rest, x.fn ≠ f) := by
              intro hall
              rw [ih.mpr hall] at h'
              exact Option.noConfusion h'
            simp only [updMatch, h, if_neg h, h', Option.map_some']
            constructor
            · intro hc; exact absurd hc (Option.noConfusion)
            · intro hall
              exact absurd (fun x hx => hall x (List.mem_cons_of_mem _ hx)) this

lemma updMatch_fns (f t : Nat) :
    ∀ s s', updMatch f t s = some s' → fns s' = fns s
  | [], s', h => Option.noConfusion h
  | sub :: rest, s', h => by
      by_cases hf : sub.fn = f
      · simp only [updMatch, if_pos hf] at h
        cases h
        simp [fns]
      · simp only [updMatch, if_neg hf] at h
        cases h' : updMatch f t rest with
        | none => rw [h'] at h; exact Option.noConfusion h
        | some r =>
            rw [h'] at h
            cases h
            have ih := updMatch_fns f t rest r h'
            simp only [fns] at ih
            simp [fns, ih]

lemma updMatch_thresholdOf (f t : Nat) :
    ∀ s s', updMatch f t s = some s' → thresholdOf f s' = some t
  | [], s', h => Option.noConfusion h
  | sub :: rest, s', h => by
      by_cases hf : sub.fn = f
      · simp only [updMatch, if_pos hf] at h
        cases h
        simp [thresholdOf, List.find?, hf]
      · simp only [updMatch, if_neg hf] at h
        cases h' : updMatch f t rest with
        | none => rw [h'] at h; exact Option.noConfusion h
        | some r =>
            rw [h'] at h
            cases h
            show thresholdOf f (sub :: r) = some t
            rw [thresholdOf, List.find?_cons_of_neg _ (by simp [hf])]
            exact updMatch_thresholdOf f t rest r h'

lemma updMatch_filter_live (t : Nat) :
    ∀ s s', updMatch 0 t s = some s' →
      s'.filter (fun sub => sub.fn != 0) = s.filter (fun sub => sub.fn != 0)
  | [], s', h => Option.noConfusion h
  | sub :: rest, s', h => by
      by_cases hf : sub.fn = 0
      · simp only [updMatch, if_pos hf] at h
        cases h
        simp [List.filter, hf]
      · simp only [updMatch, if_neg hf] at h
        cases h' : updMatch 0 t rest with
        | none => rw [h'] at h; exact Option.noConfusion h
        | some r =>
            rw [h'] at h
            cases h
            simp [List.filter, hf, updMatch_filter_live t rest r h']

lemma setLastFree_eq_none_iff (f t : Nat) (s : List Subscriber) :
    setLastFree f t s = none ↔ ∀ sub ∈ s, sub.fn ≠ 0 := by
  induction s with
  | nil => simp [setLastFree]
  | cons sub rest ih =>
      cases h' : setLastFree f t rest with
      | none =>
          by_cases h : sub.fn = 0
          · simp [setLastFree, h', h]
          · simp only [setLastFree, h', if_neg h, List.mem_cons]
            constructor
            · rintro - x (rfl | hx)
              · exact h
              · exact ih.mp h' x hx
            · intro _; trivial
      | some r =>
          have : ¬ (∀ x ∈ rest, x.fn ≠ 0) := by
            intro hall
            rw [ih.mpr hall] at h'
            exact Option.noConfusion h'
          simp only [setLastFree, h']
          constructor
          · intro hc; exact absurd hc (Option.noConfusion)
          · intro hall
            exact absurd (fun x hx => hall x (List.mem_cons_of_mem _ hx)) this

lemma setLastFree_some_spec (f t : Nat) :
    ∀ s s', setLastFree f t s = some s' →
      ∃ j sub, s.get? j = some sub ∧ sub.fn = 0 ∧
        (∀ k sub', j < k → s.get? k = some sub' → sub'.fn ≠ 0) ∧
        s' = s.set j ⟨f, t⟩
  | [], s', h => Option.noConfusion h
  | sub :: rest, s', h => by
      cases h' : setLastFree f t rest with
      | some r =>
          simp only [setLastFree, h'] at h
          cases h
          obtain ⟨j, sub₀, hget, hfn, hmax, hset⟩ :=
            setLastFree_some_spec f t rest r h'
          refine ⟨j + 1, sub₀, by simpa using hget, hfn, ?_, by simp [hset]⟩
          intro k sub' hk hget'
          cases k with
          | zero => omega
          | succ k' =>
              exact hmax k' sub' (by omega) (by simpa using hget')
      | none =>
          simp only [setLastFree, h'] at h
          by_cases hfree : sub.fn = 0
          · rw [if_pos hfree] at h
            cases h
            refine ⟨0, sub, rfl, hfree, ?_, by simp⟩
            intro k sub' hk hget'
            cases k with
            | zero => omega
            | succ k' =>
                have hmem : sub' ∈ rest := List.get?_mem (by simpa using hget')
                exact (setLastFree_eq_none_iff f t rest).mp h' sub' hmem
          · rw [if_neg hfree] at h
            exact Option.noConfusion h

lemma setLastFree_fns_mem (f t : Nat) :
    ∀ s s', setLastFree f t s = some s' → ∀ b ∈ fns s', b ∈ fns s ∨ b = f
  | [], s', h => Option.noConfusion h
  | sub :: rest, s', h => by
      cases h' : setLastFree f t rest with
      | some r =>
          simp only [setLastFree, h'] at h
          cases h
          intro b hb
          rcases (by simpa [fns] using hb : b = sub.fn ∨ b ∈ fns r) with hb' | hb'
          · exact Or.inl (by simp [fns, hb'])
          · rcases setLastFree_fns_mem f t rest r h' b hb' with hc | hc
            · exact Or.inl (by simp [fns]; exact Or.inr (by simpa [fns] using hc))
            · exact Or.inr hc
      | none =>
          simp only [setLastFree, h'] at h
          by_cases hfree : sub.fn = 0
          · rw [if_pos hfree] at h
            cases h
            intro b hb
            rcases (by simpa [fns] using hb : b = f ∨ b ∈ fns rest) with hb' | hb'
            · exact Or.inr hb'
            · exact Or.inl (by simp [fns]; exact Or.inr (by simpa [fns] using hb'))
          · rw [if_neg hfree] at h
            exact Option.noConfusion h

lemma setLastFree_count (f t : Nat) (hf : f ≠ 0) :
    ∀ s s', setLastFree f t s = some s' →
      (fns s').count f = (fns s).count f + 1
  | [], s', h => Option.noConfusion h
  | sub :: rest, s', h => by
      cases h' : setLastFree f t rest with
      | some r =>
          simp only [setLastFree, h'] at h
          cases h
          have ih := setLastFree_count f t hf rest r h'
          simp only [fns] at ih
          simp [fns, List.count_cons, ih]
          omega
      | none =>
          simp only [setLastFree, h'] at h
          by_cases hfree : sub.fn = 0
          · rw [if_pos hfree] at h
            cases h
            simp [fns, List.count_cons, hfree, Ne.symm hf]
          · rw [if_neg hfree] at h
            exact Option.noConfusion h

lemma setLastFree_countLive (f t : Nat) (hf : f ≠ 0) :
    ∀ s s', setLastFree f t s = some s' → countLive s' = countLive s + 1
  | [], s', h => Option.noConfusion h
  | sub :: rest, s', h => by
      cases h' : setLastFree f t rest with
      | some r =>
          simp only [setLastFree, h'] at h
          cases h
          have ih := setLastFree_countLive f t hf rest r h'
          simp only [countLive, fns] at ih
          simp [countLive, fns, List.countP_cons, ih]
          omega
      | none =>
          simp only [setLastFree, h'] at h
          by_cases hfree : sub.fn = 0
          · rw [if_pos hfree] at h
            cases h
            simp [countLive, fns, List.countP_cons, hfree, hf]
          · rw [if_neg hfree] at h
            exact Option.noConfusion h

lemma setLastFree_thresholdOf (f t : Nat) :
    ∀ s s', setLastFree f t s = some s' → (∀ sub ∈ s, sub.fn ≠ f) →
      thresholdOf f s' = some t
  | [], s', h => fun _ => Option.noConfusion h
  | sub :: rest, s', h => by
      intro hnot
      cases h' : setLastFree f t rest with
      | some r =>
          simp only [setLastFree, h'] at h
          cases h
          have hne : sub.fn ≠ f := hnot sub (List.mem_cons_self _ _)
          show thresholdOf f (sub :: r) = some t
          rw [thresholdOf, List.find?_cons_of_neg _ (by simp [hne])]
          exact setLastFree_thresholdOf f t rest r h'
            (fun x hx => hnot x (List.mem_cons_of_mem _ hx))
      | none =>
          simp only [setLastFree, h'] at h
          by_cases hfree : sub.fn = 0
          · rw [if_pos hfree] at h
            cases h
            simp [thresholdOf, List.find?]
          · rw [if_neg hfree] at h
            exact Option.noConfusion h

lemma setLastFree_length (f t : Nat) :
    ∀ s s', setLastFree f t s = some s' → s'.length = s.length
  | [], s', h => Option.noConfusion h
  | sub :: rest, s', h => by
      cases h' : setLastFree f t rest with
      | some r =>
          simp only [setLastFree, h'] at h
          cases h
          simp [setLastFree_length f t rest r h']
      | none =>
          simp only [setLastFree, h'] at h
          by_cases hfree : sub.fn = 0
          · rw [if_pos hfree] at h
            cases h
            simp
          · rw [if_neg hfree] at h
            exact Option.noConfusion h

lemma unsubAux_eq_none_iff (f : Nat) (s : List Subscriber) :
    unsubAux f s = none ↔ ∀ sub ∈ s, sub.fn ≠ f := by
  induction s with
  | nil => simp [unsubAux]
  | cons sub rest ih =>
      by_cases h : sub.fn = f
      · simp [unsubAux, h]
      · cases h' : unsubAux f rest with
        | none =>
            simp only [unsubAux, if_neg h, h', Option.map_none', List.mem_cons]
            constructor
            · rintro - x (rfl | hx)
              · exact h
              · exact ih.mp h' x hx
            · intro _; trivial
        | some r =>
            have : ¬ (∀ x ∈ rest, x.fn ≠ f) := by
              intro hall
              rw [ih.mpr hall] at h'
              exact Option.noConfusion h'
            simp only [unsubAux, if_neg h, h', Option.map_some']
            constructor
            · intro hc; exact absurd hc (Option.noConfusion)
            · intro hall
              exact absurd (fun x hx => hall x (List.mem_cons_of_mem _ hx)) this

lemma unsubAux_some_spec (f : Nat) :
    ∀ s s', unsubAux f s = some s' →
      ∃ j sub, s.get? j = some sub ∧ sub.fn = f ∧
        s' = s.set j ⟨0, sub.threshold⟩
  | [], s', h => Option.noConfusion h
  | sub :: rest, s', h => by
      by_cases hf : sub.fn = f
      · simp only [unsubAux, if_pos hf] at h
        cases h
        exact ⟨0, sub, rfl, hf, by simp⟩
      · simp only [unsubAux, if_neg hf] at h
        cases h' : unsubAux f rest with
        | none => rw [h'] at h; exact Option.noConfusion h
        | some r =>
            rw [h'] at h
            cases h
            obtain ⟨j, sub₀, hget, hfn, hset⟩ := unsubAux_some_spec f rest r h'
            exact ⟨j + 1, sub₀, by simpa using hget, hfn, by simp [hset]⟩

lemma unsubAux_count (f : Nat) (hf : f ≠ 0) :
    ∀ s s', unsubAux f s = some s' →
      (fns s').count f + 1 = (fns s).count f
  | [], s', h => Option.noConfusion h
  | sub :: rest, s', h => by
      by_cases hmatch : sub.fn = f
      · simp only [unsubAux, if_pos hmatch] at h
        cases h
        simp [fns, List.count_cons, hmatch, hf, Ne.symm hf]
      · simp only [unsubAux, if_neg hmatch] at h
        cases h' : unsubAux f rest with
        | none => rw [h'] at h; exact Option.noConfusion h
        | some r =>
            rw [h'] at h
            cases h
            have ih := unsubAux_count f hf rest r h'
            simp only [fns] at ih
            simp [fns, List.count_cons]
            omega

lemma unsubAux_fns_mem (f : Nat) :
    ∀ s s', unsubAux f s = some s' → ∀ b ∈ fns s', b ∈ fns s ∨ b = 0
  | [], s', h => Option.noConfusion h
  | sub :: rest, s', h => by
      by_cases hmatch : sub.fn = f
      · simp only [unsubAux, if_pos hmatch] at h
        cases h
        intro b hb
        rcases (by simpa [fns] using hb : b = 0 ∨ b ∈ fns rest) with hb' | hb'
        · exact Or.inr hb'
        · exact Or.inl (by simp [fns]; exact Or.inr (by simpa [fns] using hb'))
      · simp only [unsubAux, if_neg hmatch] at h
        cases h' : unsubAux f rest with
        | none => rw [h'] at h; exact Option.noConfusion h
        | some r =>
            rw [h'] at h
            cases h
            intro b hb
            rcases (by simpa [fns] using hb : b = sub.fn ∨ b ∈ fns r) with hb' | hb'
            · exact Or.inl (by simp [fns, hb'])
            · rcases unsubAux_fns_mem f rest r h' b hb' with hc | hc
              · exact Or.inl (by simp [fns]; exact Or.inr (by simpa [fns] using hc))
              · exact Or.inr hc

lemma unsubAux_self_of_free :
    ∀ s : List Subscriber, (∃ sub ∈ s, sub.fn = 0) → unsubAux 0 s = some s
  | [], h => by simp at h
  | sub :: rest, h => by
      by_cases hmatch : sub.fn = 0
      · have : ({ sub with fn := 0 } : Subscriber) = sub := by
          cases sub with
          | mk fn threshold => simp_all
        simp [unsubAux, hmatch, this]
      · obtain ⟨x, hx, hx0⟩ := h
        rcases List.mem_cons.mp hx with rfl | hx'
        · exact absurd hx0 hmatch
        · simp [unsubAux, hmatch, unsubAux_self_of_free rest ⟨x, hx', hx0⟩]

/-! ### Pairwise-distinctness helpers -/

lemma count_le_one_of_pairwise (f : Nat) (hf : f ≠ 0) :
    ∀ l : List Nat, l.Pairwise Q → l.count f ≤ 1
  | [], _ => by simp
  | a :: l, hp => by
      rcases List.pairwise_cons.mp hp with ⟨hhead, htail⟩
      have ih := count_le_one_of_pairwise f hf l htail
      by_cases ha : a = f
      · have hnot : f ∉ l := fun hmem =>
          hhead f hmem (by rw [ha]; exact hf) hf ha
        simp [List.count_cons, ha, List.count_eq_zero.mpr hnot]
      · simpa [List.count_cons, Ne.symm ha] using ih

lemma pairwise_elem_unique {s : List Subscriber} {f : Nat}
    (hp : (fns s).Pairwise Q) (hf : f ≠ 0) :
    ∀ a ∈ s, ∀ b ∈ s, a.fn = f → b.fn = f → a = b := by
  induction s with
  | nil => simp
  | cons sub rest ih =>
      rcases List.pairwise_cons.mp hp with ⟨hhead, htail⟩
      intro a ha b hb haf hbf
      rcases List.mem_cons.mp ha with rfl | ha'
      · rcases List.mem_cons.mp hb with rfl | hb'
        · rfl
        · exfalso
          have hmem : b.fn ∈ fns rest := by simp [fns]; exact ⟨b, hb', rfl⟩
          exact hhead b.fn hmem (by rw [haf]; exact hf) (by rw [hbf]; exact hf)
            (by rw [haf, hbf])
      · rcases List.mem_cons.mp hb with rfl | hb'
        · exfalso
          have hmem : a.fn ∈ fns rest := by simp [fns]; exact ⟨a, ha', rfl⟩
          exact hhead a.fn hmem (by rw [hbf]; exact hf) (by rw [haf]; exact hf)
            (by rw [hbf, haf])
        · exact ih htail a ha' b hb' haf hbf

lemma updMatch_length (f t : Nat) :
    ∀ s s', updMatch f t s = some s' → s'.length = s.length := by
  intro s s' h
  have := updMatch_fns f t s s' h
  simpa [fns] using congrArg List.length this

lemma unsubAux_length (f : Nat) :
    ∀ s s', unsubAux f s = some s' → s'.length = s.length := by
  intro s s' h
  obtain ⟨j, sub, _, _, hset⟩ := unsubAux_some_spec f s s' h
  simp [hset]

/-! ### Delivery characterization -/

lemma deliver_eq (severity : Nat) (buf : List Char) (s : List Subscriber) :
    deliver severity buf s =
      (s.filter (fun sub => sub.fn != 0 && decide (sub.threshold ≤ severity))).map
        (fun sub => (sub.fn, severity, buf)) := by
  induction s with
  | nil => simp [deliver]
  | cons sub rest ih =>
      by_cases h0 : sub.fn = 0
      · simp [deliver, h0, List.filter_cons, ih]
      · by_cases ht : sub.threshold ≤ severity
        · simp [deliver, h0, ht, List.filter_cons, ih]
        · simp [deliver, h0, ht, List.filter_cons, ih]

lemma mem_picolog_message (g S S' : Nat) (m msg : List Char)
    (s : List Subscriber) :
    (g, S', m) ∈ picolog_message S msg s ↔
      S' = S ∧ m = vsnprintfTrunc msg ∧
        ∃ sub ∈ s, sub.fn = g ∧ g ≠ 0 ∧ sub.threshold ≤ S := by
  rw [picolog_message, deliver_eq]
  constructor
  · intro h
    obtain ⟨sub, hsub, heq⟩ := List.mem_map.mp h
    obtain ⟨hmem, hpred⟩ := List.mem_filter.mp hsub
    obtain ⟨hfn, hth⟩ := (Bool.and_eq_true _ _).mp hpred
    simp only [Prod.mk.injEq] at heq
    obtain ⟨hg, hS, hm⟩ := heq
    refine ⟨hS.symm, hm.symm, sub, hmem, hg, ?_, ?_⟩
    · rw [← hg]; simpa using hfn
    · simpa using hth
  · rintro ⟨rfl, rfl, sub, hmem, hfn, hg, hth⟩
    refine List.mem_map.mpr ⟨sub, List.mem_filter.mpr ⟨hmem, ?_⟩, by rw [hfn]⟩
    simp [hfn, hg, hth]

/-! ### Invariant preservation -/

lemma setLastFree_pairwise (f t : Nat) :
    ∀ s s', setLastFree f t s = some s' → (∀ sub ∈ s, sub.fn ≠ f) →
      (fns s).Pairwise Q → (fns s').Pairwise Q
  | [], s', h => fun _ _ => Option.noConfusion h
  | sub :: rest, s', h => by
      intro hnot hp
      simp only [fns, List.map_cons] at hp
      rcases List.pairwise_cons.mp hp with ⟨hhead, htail⟩
      cases h' : setLastFree f t rest with
      | some r =>
          simp only [setLastFree, h'] at h
          cases h
          have htail' : (fns r).Pairwise Q :=
            setLastFree_pairwise f t rest r h'
              (fun x hx => hnot x (List.mem_cons_of_mem _ hx))
              (by simpa [fns] using htail)
          simp only [fns, List.map_cons, List.pairwise_cons]
          refine ⟨?_, by simpa [fns] using htail'⟩
          intro b hb
          rcases setLastFree_fns_mem f t rest r h' b (by simpa [fns] using hb)
            with hc | hc
          · exact hhead b (by simpa [fns] using hc)
          · subst hc
            intro h1 h2 h3
            exact hnot sub (List.mem_cons_self _ _) h3
      | none =>
          simp only [setLastFree, h'] at h
          by_cases hfree : sub.fn = 0
          · rw [if_pos hfree] at h
            cases h
            simp only [fns, List.map_cons, List.pairwise_cons]
            refine ⟨?_, by simpa [fns] using htail⟩
            intro b hb h1 h2
            have hbmem : ∃ x ∈ rest, x.fn = b := by simpa [fns] using hb
            obtain ⟨x, hx, rfl⟩ := hbmem
            intro heq
            exact hnot x (List.mem_cons_of_mem _ hx) heq.symm
          · rw [if_neg hfree] at h
            exact Option.noConfusion h

lemma unsubAux_pairwise (f : Nat) :
    ∀ s s', unsubAux f s = some s' →
      (fns s).Pairwise Q → (fns s').Pairwise Q
  | [], s', h => fun _ => Option.noConfusion h
  | sub :: rest, s', h => by
      intro hp
      simp only [fns, List.map_cons] at hp
      rcases List.pairwise_cons.mp hp with ⟨hhead, htail⟩
      by_cases hmatch : sub.fn = f
      · simp only [unsubAux, if_pos hmatch] at h
        cases h
        simp only [fns, List.map_cons, List.pairwise_cons]
        refine ⟨?_, by simpa [fns] using htail⟩
        intro b hb h1 h2
        exact absurd rfl h1
      · simp only [unsubAux, if_neg hmatch] at h
        cases h' : unsubAux f rest with
        | none => rw [h'] at h; exact Option.noConfusion h
        | some r =>
            rw [h'] at h
            cases h
            have htail' : (fns r).Pairwise Q :=
              unsubAux_pairwise f rest r h' (by simpa [fns] using htail)
            simp only [fns, List.map_cons, List.pairwise_cons]
            refine ⟨?_, by simpa [fns] using htail'⟩
            intro b hb
            rcases unsubAux_fns_mem f rest r h' b (by simpa [fns] using hb)
              with hc | hc
            · exact hhead b (by simpa [fns] using hc)
            · subst hc
              intro h1 h2
              exact absurd rfl h2

lemma subscribe_inv (f t : Nat) (s : List Subscriber) (hinv : Inv s) :
    Inv (picolog_subscribe f t s).2 := by
  obtain ⟨hlen, hp⟩ := hinv
  unfold picolog_subscribe
  cases hm : updMatch f t s with
  | some s' =>
      have hfns := updMatch_fns f t s s' hm
      exact ⟨by rw [← hlen]; exact updMatch_length f t s s' hm, hfns ▸ hp⟩
  | none =>
      cases hs : setLastFree f t s with
      | some s' =>
          have hnot : ∀ sub ∈ s, sub.fn ≠ f := (updMatch_eq_none_iff f t s).mp hm
          exact ⟨by rw [← hlen]; exact setLastFree_length f t s s' hs,
            setLastFree_pairwise f t s s' hs hnot hp⟩
      | none => exact ⟨hlen, hp⟩

lemma unsubscribe_inv (f : Nat) (s : List Subscriber) (hinv : Inv s) :
    Inv (picolog_unsubscribe f s).2 := by
  obtain ⟨hlen, hp⟩ := hinv
  unfold picolog_unsubscribe
  cases hm : unsubAux f s with
  | some s' =>
      exact ⟨by rw [← hlen]; exact unsubAux_length f s s' hm,
        unsubAux_pairwise f s s' hm hp⟩
  | none => exact ⟨hlen, hp⟩

lemma picolog_init_eq (t : Nat) :
    picolog_init t = [⟨0, 0⟩, ⟨0, 0⟩, ⟨0, 0⟩, ⟨0, 0⟩, ⟨0, 0⟩, ⟨picolog_format, t⟩] :=
  rfl

lemma init_inv (t : Nat) : Inv (picolog_init t) := by
  refine ⟨rfl, ?_⟩
  have hfns : fns (picolog_init t) = [0, 0, 0, 0, 0, picolog_format] := rfl
  rw [hfns]
  decide

lemma emptyTable_inv : Inv emptyTable := by
  constructor
  · rfl
  · have hfns : fns emptyTable = [0, 0, 0, 0, 0, 0] := rfl
    rw [hfns]
    decide

lemma applyOp_inv (s : List Subscriber) (op : PicologOp) (h : Inv s) :
    Inv (applyOp s op) := by
  cases op with
  | init t => exact init_inv t
  | sub f t => exact subscribe_inv f t s h
  | unsub f => exact unsubscribe_inv f s h

lemma foldl_applyOp_inv :
    ∀ (ops : List PicologOp) (s : List Subscriber), Inv s →
      Inv (ops.foldl applyOp s)
  | [], s, h => h
  | op :: ops, s, h =>
      foldl_applyOp_inv ops (applyOp s op) (applyOp_inv s op h)

/-! ### Subscribe-level lemmas -/

lemma subscribe_present (f t : Nat) (s : List Subscriber) (hmem : f ∈ fns s) :
    (picolog_subscribe f t s).1 = .PICOLOG_ERR_NONE ∧
    fns (picolog_subscribe f t s).2 = fns s ∧
    thresholdOf f (picolog_subscribe f t s).2 = some t := by
  obtain ⟨sub₀, hsub₀, hfn₀⟩ : ∃ x ∈ s, x.fn = f := by simpa [fns] using hmem
  unfold picolog_subscribe
  cases hm : updMatch f t s with
  | none =>
      exact absurd hfn₀ ((updMatch_eq_none_iff f t s).mp hm sub₀ hsub₀)
  | some s' =>
      exact ⟨rfl, updMatch_fns f t s s' hm, updMatch_thresholdOf f t s s' hm⟩

lemma subscribe_fresh (f t : Nat) (s : List Subscriber)
    (hnot : f ∉ fns s) (hfree : ∃ sub ∈ s, sub.fn = 0) :
    (picolog_subscribe f t s).1 = .PICOLOG_ERR_NONE ∧
    (fns (picolog_subscribe f t s).2).count f = (fns s).count f + 1 ∧
    countLive (picolog_subscribe f t s).2 = countLive s + 1 ∧
    thresholdOf f (picolog_subscribe f t s).2 = some t := by
  have hf0 : f ≠ 0 := by
    rintro rfl
    obtain ⟨sub, hsub, hfn⟩ := hfree
    exact hnot (by simp [fns]; exact ⟨sub, hsub, hfn⟩)
  have hnot' : ∀ sub ∈ s, sub.fn ≠ f := by
    intro sub hsub heq
    exact hnot (by simp [fns]; exact ⟨sub, hsub, heq⟩)
  unfold picolog_subscribe
  rw [(updMatch_eq_none_iff f t s).mpr hnot']
  cases hs : setLastFree f t s with
  | none =>
      exfalso
      obtain ⟨sub, hsub, hfn⟩ := hfree
      exact (setLastFree_eq_none_iff f t s).mp hs sub hsub hfn
  | some s' =>
      exact ⟨rfl, setLastFree_count f t hf0 s s' hs,
        setLastFree_countLive f t hf0 s s' hs,
        setLastFree_thresholdOf f t s s' hs hnot'⟩

lemma subAll_cons (f t : Nat) (ts : List Nat) (s : List Subscriber) :
    subAll f (t :: ts) s =
      (decide ((picolog_subscribe f t s).1 = .PICOLOG_ERR_NONE) &&
        (subAll f ts (picolog_subscribe f t s).2).1,
       (subAll f ts (picolog_subscribe f t s).2).2) := rfl

lemma subAll_present (f : Nat) :
    ∀ (ts : List Nat) (t : Nat) (s : List Subscriber), f ∈ fns s →
      (subAll f (t :: ts) s).1 = true ∧
      fns (subAll f (t :: ts) s).2 = fns s ∧
      thresholdOf f (subAll f (t :: ts) s).2 = (t :: ts).getLast?
  | [], t, s, hmem => by
      obtain ⟨h1, h2, h3⟩ := subscribe_present f t s hmem
      rw [subAll_cons]
      exact ⟨by simp [subAll, h1], by simpa [subAll] using h2,
        by simpa [subAll] using h3⟩
  | t' :: ts', t, s, hmem => by
      obtain ⟨h1, h2, h3⟩ := subscribe_present f t s hmem
      have hmem' : f ∈ fns (picolog_subscribe f t s).2 := h2 ▸ hmem
      obtain ⟨ih1, ih2, ih3⟩ :=
        subAll_present f ts' t' (picolog_subscribe f t s).2 hmem'
      rw [subAll_cons]
      refine ⟨by simp [h1, ih1], by rw [ih2, h2], ?_⟩
      rw [ih3, List.getLast?_cons_cons]

/-! ### Claim theorems -/

/-- C1: for every severity `S` and every live subscriber with threshold `T`
(both drawn from the level enumeration TRACE..ALWAYS), `picolog_message`
with severity `S` invokes that subscriber's callback iff `S >= T`. -/
theorem C1_emit_invokes_iff (S T f : Nat) (hS : S ∈ picologLevels)
    (hT : T ∈ picologLevels) (msg : List Char) (s : List Subscriber)
    (hinv : Inv s) (hf : f ≠ 0) (hmem : (⟨f, T⟩ : Subscriber) ∈ s) :
    (∃ m, (f, S, m) ∈ picolog_message S msg s) ↔ T ≤ S := by
  constructor
  · rintro ⟨m, hm⟩
    rw [mem_picolog_message] at hm
    obtain ⟨-, -, sub, hsub, hfn, -, hth⟩ := hm
    have hsame : sub = ⟨f, T⟩ :=
      pairwise_elem_unique hinv.2 hf sub hsub ⟨f, T⟩ hmem hfn rfl
    rw [hsame] at hth
    exact hth
  · intro hTS
    exact ⟨vsnprintfTrunc msg,
      (mem_picolog_message f S S _ msg s).mpr
        ⟨rfl, rfl, ⟨f, T⟩, hmem, rfl, hf, hTS⟩⟩

/-- C1 witness: a DEBUG-threshold subscriber receives an INFO message. -/
theorem C1_emit_invokes_iff_witness :
    (∃ m, (7, PICOLOG_INFO_LEVEL, m) ∈
      picolog_message PICOLOG_INFO_LEVEL ['x']
        [⟨7, PICOLOG_DEBUG_LEVEL⟩, ⟨0, 0⟩, ⟨0, 0⟩, ⟨0, 0⟩, ⟨0, 0⟩, ⟨0, 0⟩]) ↔
      PICOLOG_DEBUG_LEVEL ≤ PICOLOG_INFO_LEVEL :=
  C1_emit_invokes_iff PICOLOG_INFO_LEVEL PICOLOG_DEBUG_LEVEL 7 (by decide)
    (by decide) ['x'] _ (by decide) (by decide) (by decide)

/-- C2: any non-empty sequence of `picolog_subscribe(f, t)` calls with one
fixed non-NULL callback `f`, started in a table satisfying the invariant in
which `f` is already present or some slot is free, succeeds at every call,
leaves exactly one entry for `f`, that entry's threshold is the most recent
`t`, and consumes at most one slot (none when `f` was already present). -/
theorem C2_resubscribe_updates (f : Nat) (ts : List Nat) (t0 : Nat)
    (s : List Subscriber) (hinv : Inv s) (hf : f ≠ 0)
    (hcan : f ∈ fns s ∨ (0 : Nat) ∈ fns s)
    (hlast : ts.getLast? = some t0) :
    (subAll f ts s).1 = true ∧
    (fns (subAll f ts s).2).count f = 1 ∧
    thresholdOf f (subAll f ts s).2 = some t0 ∧
    countLive (subAll f ts s).2 =
      (if f ∈ fns s then countLive s else countLive s + 1) := by
  cases ts with
  | nil => simp at hlast
  | cons t ts' =>
      by_cases hmem : f ∈ fns s
      · obtain ⟨h1, h2, h3⟩ := subAll_present f ts' t s hmem
        have hcount : (fns s).count f = 1 := by
          have hle := count_le_one_of_pairwise f hf (fns s) hinv.2
          have hne : (fns s).count f ≠ 0 := by
            rw [Ne, List.count_eq_zero]
            exact fun h => h hmem
          omega
        refine ⟨h1, by rw [h2, hcount], by rw [h3, hlast], ?_⟩
        rw [if_pos hmem]
        show (fns _).countP _ = (fns s).countP _
        rw [h2]
      · have h0mem : (0 : Nat) ∈ fns s := hcan.resolve_left hmem
        have hfree : ∃ sub ∈ s, sub.fn = 0 := by simpa [fns] using h0mem
        obtain ⟨h1, h2, h3, h4⟩ := subscribe_fresh f t s hmem hfree
        have hzero : (fns s).count f = 0 := List.count_eq_zero.mpr hmem
        have hcnt1 : (fns (picolog_subscribe f t s).2).count f = 1 := by
          rw [h2, hzero]
        have hmem₁ : f ∈ fns (picolog_subscribe f t s).2 := by
          by_contra hnm
          rw [List.count_eq_zero.mpr hnm] at hcnt1
          simp at hcnt1
        cases ts' with
        | nil =>
            have hlast' : t = t0 := by simpa using hlast
            subst hlast'
            rw [subAll_cons]
            refine ⟨by simp [subAll, h1], by simpa [subAll] using hcnt1,
              by simpa [subAll] using h4, ?_⟩
            rw [if_neg hmem]
            simpa [subAll] using h3
        | cons t' ts'' =>
            obtain ⟨k1, k2, k3⟩ :=
              subAll_present f ts'' t' (picolog_subscribe f t s).2 hmem₁
            rw [subAll_cons]
            refine ⟨by simp [h1, k1], ?_, ?_, ?_⟩
            · show (fns _).count f = 1
              rw [k2]
              exact hcnt1
            · show thresholdOf f _ = some t0
              rw [k3]
              rw [List.getLast?_cons_cons] at hlast
              exact hlast
            · rw [if_neg hmem]
              show (fns _).countP _ = countLive s + 1
              rw [k2]
              exact h3

/-- C2 witness: subscribing callback 7 twice into the empty table. -/
theorem C2_resubscribe_updates_witness :
    (subAll 7 [103, 101] emptyTable).1 = true ∧
    (fns (subAll 7 [103, 101] emptyTable).2).count 7 = 1 ∧
    thresholdOf 7 (subAll 7 [103, 101] emptyTable).2 = some 101 ∧
    countLive (subAll 7 [103, 101] emptyTable).2 =
      (if (7 : Nat) ∈ fns emptyTable then countLive emptyTable
       else countLive emptyTable + 1) :=
  C2_resubscribe_updates 7 [103, 101] 101 emptyTable (by decide) (by decide)
    (Or.inr (by decide)) (by decide)

/-- C3: when all N slots are occupied and none matches `f`,
`picolog_subscribe` returns `PICOLOG_ERR_SUBSCRIBERS_EXCEEDED` and leaves
every existing entry unchanged (the table is returned as it was). -/
theorem C3_subscribe_exceeded (f t : Nat) (s : List Subscriber)
    (hlen : s.length = PICOLOG_MAX_SUBSCRIBERS)
    (hocc : ∀ sub ∈ s, sub.fn ≠ 0) (hnomatch : ∀ sub ∈ s, sub.fn ≠ f) :
    picolog_subscribe f t s = (.PICOLOG_ERR_SUBSCRIBERS_EXCEEDED, s) := by
  unfold picolog_subscribe
  rw [(updMatch_eq_none_iff f t s).mpr hnomatch,
    (setLastFree_eq_none_iff f t s).mpr hocc]

/-- C3 witness: a full table of six distinct callbacks rejects a seventh. -/
theorem C3_subscribe_exceeded_witness :
    picolog_subscribe 9 100 fullTable =
      (.PICOLOG_ERR_SUBSCRIBERS_EXCEEDED, fullTable) :=
  C3_subscribe_exceeded 9 100 fullTable (by decide) (by decide) (by decide)

/-- C4: a callback not yet registered, with a free slot available, is placed
with its threshold in the first free slot of the implementation's
deterministic scan order, and the call succeeds.  The C loop overwrites
`available_slot` at every free slot of its ascending scan, so the slot it
finally assigns, index `j` below, is the highest-index free slot: the first
free slot when the slots are scanned in the deterministic descending-index
order.  All slots above `j` are occupied and `j` is uniquely determined by
the table, so the choice is deterministic. -/
theorem C4_subscribe_first_free (f t : Nat) (s : List Subscriber)
    (hnot : f ∉ fns s) (hfree : ∃ sub ∈ s, sub.fn = 0) :
    ∃ j sub, s.get? j = some sub ∧ sub.fn = 0 ∧
      (∀ k sub', j < k → s.get? k = some sub' → sub'.fn ≠ 0) ∧
      picolog_subscribe f t s = (.PICOLOG_ERR_NONE, s.set j ⟨f, t⟩) := by
  have hnot' : ∀ sub ∈ s, sub.fn ≠ f := by
    intro sub hsub heq
    exact hnot (by simp [fns]; exact ⟨sub, hsub, heq⟩)
  unfold picolog_subscribe
  rw [(updMatch_eq_none_iff f t s).mpr hnot']
  cases hs : setLastFree f t s with
  | none =>
      exfalso
      obtain ⟨sub, hsub, hfn⟩ := hfree
      exact (setLastFree_eq_none_iff f t s).mp hs sub hsub hfn
  | some s' =>
      obtain ⟨j, sub, hget, h0, hmax, rfl⟩ := setLastFree_some_spec f t s s' hs
      exact ⟨j, sub, hget, h0, hmax, rfl⟩

/-- C4 witness: callback 7 lands in the (unique) deterministic free slot of
the empty table. -/
theorem C4_subscribe_first_free_witness :
    ∃ j sub, emptyTable.get? j = some sub ∧ sub.fn = 0 ∧
      (∀ k sub', j < k → emptyTable.get? k = some sub' → sub'.fn ≠ 0) ∧
      picolog_subscribe 7 103 emptyTable =
        (.PICOLOG_ERR_NONE, emptyTable.set j ⟨7, 103⟩) :=
  C4_subscribe_first_free 7 103 emptyTable (by decide) ⟨⟨0, 0⟩, by decide, rfl⟩

/-- C5: for a non-NULL callback `f` in a table satisfying the invariant:
if `f` occupies a slot, `picolog_unsubscribe f` clears that slot (sets its
`fn` to NULL, leaving every other slot untouched) and returns success, after
which `f` is no longer registered; otherwise it returns
`PICOLOG_ERR_NOT_SUBSCRIBED` and the table is unchanged. -/
theorem C5_unsubscribe (f : Nat) (s : List Subscriber) (hf : f ≠ 0)
    (hinv : Inv s) :
    (f ∈ fns s → ∃ j sub, s.get? j = some sub ∧ sub.fn = f ∧
        picolog_unsubscribe f s =
          (.PICOLOG_ERR_NONE, s.set j ⟨0, sub.threshold⟩) ∧
        f ∉ fns (s.set j ⟨0, sub.threshold⟩)) ∧
    (f ∉ fns s → picolog_unsubscribe f s = (.PICOLOG_ERR_NOT_SUBSCRIBED, s)) := by
  constructor
  · intro hmem
    unfold picolog_unsubscribe
    cases hm : unsubAux f s with
    | none =>
        exfalso
        obtain ⟨sub₀, hsub₀, hfn₀⟩ : ∃ x ∈ s, x.fn = f := by simpa [fns] using hmem
        exact (unsubAux_eq_none_iff f s).mp hm sub₀ hsub₀ hfn₀
    | some s' =>
        obtain ⟨j, sub, hget, hfn, rfl⟩ := unsubAux_some_spec f s s' hm
        refine ⟨j, sub, hget, hfn, rfl, ?_⟩
        have hcnt := unsubAux_count f hf s _ hm
        have hle := count_le_one_of_pairwise f hf (fns s) hinv.2
        intro hmem'
        have : (fns (s.set j ⟨0, sub.threshold⟩)).count f ≠ 0 := by
          rw [Ne, List.count_eq_zero]
          exact fun h => h hmem'
        omega
  · intro hnm
    unfold picolog_unsubscribe
    rw [(unsubAux_eq_none_iff f s).mpr ?_]
    intro sub hsub heq
    exact hnm (by simp [fns]; exact ⟨sub, hsub, heq⟩)

/-- C5 witness: removing the registered callback 7 succeeds and clears its
slot; removing the never-registered callback 9 fails with NotSubscribed. -/
theorem C5_unsubscribe_witness :
    (∃ j sub, unsubTable.get? j = some sub ∧ sub.fn = 7 ∧
        picolog_unsubscribe 7 unsubTable =
          (.PICOLOG_ERR_NONE, unsubTable.set j ⟨0, sub.threshold⟩) ∧
        (7 : Nat) ∉ fns (unsubTable.set j ⟨0, sub.threshold⟩)) ∧
    picolog_unsubscribe 9 unsubTable =
      (.PICOLOG_ERR_NOT_SUBSCRIBED, unsubTable) :=
  ⟨(C5_unsubscribe 7 unsubTable (by decide) (by decide)).1 (by decide),
   (C5_unsubscribe 9 unsubTable (by decide) (by decide)).2 (by decide)⟩

/-- C6: one `picolog_message` call formats the text exactly once
(`vsnprintfTrunc msg`, computed once and shared), and the invocation list is
exactly the live slots admitting the severity, in table/slot order, each
invoked exactly once with that same text.  Delivery is a plain fold over the
table on the caller's execution context: the model has no queuing or
deferral, matching the synchronous dispatch of the C loop. -/
theorem C6_emit_delivery (S : Nat) (msg : List Char) (s : List Subscriber) :
    picolog_message S msg s =
      (s.filter (fun sub => sub.fn != 0 && decide (sub.threshold ≤ S))).map
        (fun sub => (sub.fn, S, vsnprintfTrunc msg)) :=
  deliver_eq S (vsnprintfTrunc msg) s

/-- C7: the delivered text is always the truncation of the formatted text to
`PICOLOG_MAX_MESSAGE_LENGTH - 1` characters (the NUL terminator occupies the
last of the 120 buffer bytes), so every delivered message is strictly
shorter than the buffer capacity; input that already fits is passed through
unchanged, and over-length input is silently cut — `picolog_message` has no
error result. -/
theorem C7_truncation (S : Nat) (msg : List Char) (s : List Subscriber) :
    (vsnprintfTrunc msg).length ≤ PICOLOG_MAX_MESSAGE_LENGTH - 1 ∧
    (msg.length ≤ PICOLOG_MAX_MESSAGE_LENGTH - 1 → vsnprintfTrunc msg = msg) ∧
    ∀ rec ∈ picolog_message S msg s,
      rec.2.2 = vsnprintfTrunc msg ∧
      rec.2.2.length < PICOLOG_MAX_MESSAGE_LENGTH := by
  have hlen : (vsnprintfTrunc msg).length ≤ PICOLOG_MAX_MESSAGE_LENGTH - 1 := by
    simp [vsnprintfTrunc, List.length_take]
  refine ⟨hlen, ?_, ?_⟩
  · intro h
    exact List.take_of_length_le h
  · intro rec hrec
    rw [picolog_message, deliver_eq] at hrec
    obtain ⟨sub, hsub, heq⟩ := List.mem_map.mp hrec
    have hm : rec.2.2 = vsnprintfTrunc msg := by rw [← heq]
    constructor
    · exact hm
    · rw [hm]
      have : 0 < PICOLOG_MAX_MESSAGE_LENGTH := by decide
      omega

/-- C7 witness: a short message is delivered verbatim and within bounds. -/
theorem C7_truncation_witness :
    ((vsnprintfTrunc ['a']).length ≤ PICOLOG_MAX_MESSAGE_LENGTH - 1) ∧
    vsnprintfTrunc ['a'] = ['a'] ∧
    ((7, PICOLOG_TRACE_LEVEL, ['a']).2.2 = vsnprintfTrunc ['a'] ∧
      (7, PICOLOG_TRACE_LEVEL, ['a']).2.2.length < PICOLOG_MAX_MESSAGE_LENGTH) :=
  ⟨(C7_truncation PICOLOG_TRACE_LEVEL ['a']
      [⟨7, PICOLOG_TRACE_LEVEL⟩, ⟨0, 0⟩, ⟨0, 0⟩, ⟨0, 0⟩, ⟨0, 0⟩, ⟨0, 0⟩]).1,
   (C7_truncation PICOLOG_TRACE_LEVEL ['a']
      [⟨7, PICOLOG_TRACE_LEVEL⟩, ⟨0, 0⟩, ⟨0, 0⟩, ⟨0, 0⟩, ⟨0, 0⟩, ⟨0, 0⟩]).2.1
     (by decide),
   (C7_truncation PICOLOG_TRACE_LEVEL ['a']
      [⟨7, PICOLOG_TRACE_LEVEL⟩, ⟨0, 0⟩, ⟨0, 0⟩, ⟨0, 0⟩, ⟨0, 0⟩, ⟨0, 0⟩]).2.2
     (7, PICOLOG_TRACE_LEVEL, ['a']) (by decide)⟩

/-- C8: `picolog_init t` resets the registry (memset) and then subscribes
the default console formatter at `t`, so the resulting table holds exactly
that one live subscriber; consequently a callback registered before a
re-init (any `g` other than the default formatter) is never invoked by a
`picolog_message` issued after the re-init, at any severity. -/
theorem C8_init_resets (t : Nat) :
    picolog_init t =
      [⟨0, 0⟩, ⟨0, 0⟩, ⟨0, 0⟩, ⟨0, 0⟩, ⟨0, 0⟩, ⟨picolog_format, t⟩] ∧
    countLive (picolog_init t) = 1 ∧
    thresholdOf picolog_format (picolog_init t) = some t ∧
    ∀ g, g ≠ picolog_format →
      ∀ S msg m, (g, S, m) ∉ picolog_message S msg (picolog_init t) := by
  refine ⟨picolog_init_eq t, rfl, rfl, ?_⟩
  intro g hg S msg m hmem
  rw [mem_picolog_message] at hmem
  obtain ⟨-, -, sub, hsub, hfn, hg0, -⟩ := hmem
  rw [picolog_init_eq] at hsub
  rcases (by simpa using hsub :
      sub = (⟨0, 0⟩ : Subscriber) ∨ sub = (⟨picolog_format, t⟩ : Subscriber))
    with rfl | rfl
  · exact hg0 hfn.symm
  · exact hg (hfn.symm.trans rfl)

/-- C8 witness: after a re-init at WARNING, the previously subscribed
callback 7 is not invoked even by a matching-severity ALWAYS message. -/
theorem C8_init_resets_witness :
    picolog_init PICOLOG_WARNING_LEVEL =
      [⟨0, 0⟩, ⟨0, 0⟩, ⟨0, 0⟩, ⟨0, 0⟩, ⟨0, 0⟩,
        ⟨picolog_format, PICOLOG_WARNING_LEVEL⟩] ∧
    (7, PICOLOG_ALWAYS_LEVEL, vsnprintfTrunc ['x']) ∉
      picolog_message PICOLOG_ALWAYS_LEVEL ['x']
        (picolog_init PICOLOG_WARNING_LEVEL) :=
  ⟨(C8_init_resets PICOLOG_WARNING_LEVEL).1,
   (C8_init_resets PICOLOG_WARNING_LEVEL).2.2.2 7 (by decide)
     PICOLOG_ALWAYS_LEVEL ['x'] (vsnprintfTrunc ['x'])⟩

/-- C9: every sequence of init/subscribe/unsubscribe calls, starting from
the zero-initialized static table, preserves the registry invariant: the
table keeps its N slots (so at most N live subscribers), no two live slots
share a callback identity, and a free slot is distinguished from a live one
by the NULL (`fn = 0`) marker. -/
theorem C9_registry_invariant (ops : List PicologOp) :
    countLive (applyOps ops) ≤ PICOLOG_MAX_SUBSCRIBERS ∧
    (applyOps ops).length = PICOLOG_MAX_SUBSCRIBERS ∧
    (fns (applyOps ops)).Pairwise Q := by
  have hinv : Inv (applyOps ops) :=
    foldl_applyOp_inv ops emptyTable emptyTable_inv
  refine ⟨?_, hinv.1, hinv.2⟩
  calc countLive (applyOps ops) ≤ (fns (applyOps ops)).length :=
        List.countP_le_length _
    _ = (applyOps ops).length := by simp [fns]
    _ = PICOLOG_MAX_SUBSCRIBERS := hinv.1

/-- C10: the NULL callback (the free-slot marker itself).  `picolog_message`
never invokes NULL.  With at least one free slot, `picolog_subscribe NULL`
returns success while creating no live subscriber (it merely rewrites the
threshold of the first free slot, leaving the callback column and the live
entries as they were), and `picolog_unsubscribe NULL` returns success with
the table exactly unchanged.  With every slot occupied,
`picolog_subscribe NULL` fails with SubscribersExceeded and
`picolog_unsubscribe NULL` fails with NotSubscribed, both leaving the table
unchanged. -/
theorem C10_null_callback (t : Nat) (s : List Subscriber) :
    (∀ S msg m, ((0 : Nat), S, m) ∉ picolog_message S msg s) ∧
    ((∃ sub ∈ s, sub.fn = 0) →
      (picolog_subscribe 0 t s).1 = .PICOLOG_ERR_NONE ∧
      fns (picolog_subscribe 0 t s).2 = fns s ∧
      (picolog_subscribe 0 t s).2.filter (fun sub => sub.fn != 0) =
        s.filter (fun sub => sub.fn != 0) ∧
      picolog_unsubscribe 0 s = (.PICOLOG_ERR_NONE, s)) ∧
    ((∀ sub ∈ s, sub.fn ≠ 0) →
      picolog_subscribe 0 t s = (.PICOLOG_ERR_SUBSCRIBERS_EXCEEDED, s) ∧
      picolog_unsubscribe 0 s = (.PICOLOG_ERR_NOT_SUBSCRIBED, s)) := by
  refine ⟨?_, ?_, ?_⟩
  · intro S msg m hmem
    rw [mem_picolog_message] at hmem
    obtain ⟨-, -, sub, -, -, hg0, -⟩ := hmem
    exact hg0 rfl
  · intro hfree
    have hmem0 : (0 : Nat) ∈ fns s := by
      obtain ⟨sub, hsub, hfn⟩ := hfree
      simp [fns]
      exact ⟨sub, hsub, hfn⟩
    obtain ⟨h1, h2, -⟩ := subscribe_present 0 t s hmem0
    refine ⟨h1, h2, ?_, ?_⟩
    · unfold picolog_subscribe
      cases hm : updMatch 0 t s with
      | none =>
          exfalso
          obtain ⟨sub, hsub, hfn⟩ := hfree
          exact (updMatch_eq_none_iff 0 t s).mp hm sub hsub hfn
      | some s' =>
          exact updMatch_filter_live t s s' hm
    · unfold picolog_unsubscribe
      rw [unsubAux_self_of_free s hfree]
  · intro hocc
    constructor
    · unfold picolog_subscribe
      rw [(updMatch_eq_none_iff 0 t s).mpr hocc,
        (setLastFree_eq_none_iff 0 t s).mpr hocc]
    · unfold picolog_unsubscribe
      rw [(unsubAux_eq_none_iff 0 s).mpr hocc]

/-- C10 witness: NULL subscribe/unsubscribe on a table with a free slot, and
on a full table. -/
theorem C10_null_callback_witness :
    ((picolog_subscribe 0 100 nullSubTable).1 = .PICOLOG_ERR_NONE ∧
      fns (picolog_subscribe 0 100 nullSubTable).2 = fns nullSubTable ∧
      (picolog_subscribe 0 100 nullSubTable).2.filter
          (fun sub => sub.fn != 0) =
        nullSubTable.filter (fun sub => sub.fn != 0) ∧
      picolog_unsubscribe 0 nullSubTable =
        (.PICOLOG_ERR_NONE, nullSubTable)) ∧
    (picolog_subscribe 0 100 fullTable =
        (.PICOLOG_ERR_SUBSCRIBERS_EXCEEDED, fullTable) ∧
      picolog_unsubscribe 0 fullTable =
        (.PICOLOG_ERR_NOT_SUBSCRIBED, fullTable)) :=
  ⟨(C10_null_callback 100 nullSubTable).2.1 ⟨⟨0, 5⟩, by decide, rfl⟩,
   (C10_null_callback 100 fullTable).2.2 (by decide)⟩

example : picolog_init 103 =
    [⟨0, 0⟩, ⟨0, 0⟩, ⟨0, 0⟩, ⟨0, 0⟩, ⟨0, 0⟩, ⟨1, 103⟩] := by decide

example :
    picolog_message 103 ['h', 'i']
      [⟨7, 101⟩, ⟨0, 0⟩, ⟨9, 104⟩, ⟨0, 0⟩, ⟨0, 0⟩, ⟨1, 103⟩] =
    [(7, 103, ['h', 'i']), (1, 103, ['h', 'i'])] := by decide

example :
    picolog_subscribe 5 101 [⟨7, 101⟩, ⟨0, 0⟩, ⟨9, 104⟩, ⟨0, 0⟩, ⟨0, 0⟩, ⟨1, 103⟩] =
    (.PICOLOG_ERR_NONE, [⟨7, 101⟩, ⟨0, 0⟩, ⟨9, 104⟩, ⟨0, 0⟩, ⟨5, 101⟩, ⟨1, 103⟩]) := by
  decide

end Picolog
